import Mathlib

/-!
Verification of the node-representation and rewrite-rule-composition layer
(the `define_language!` / `rewrite!` macros of `src/macros.rs`).

The `define_language!` macro is a code generator: given a list of variant
declarations it emits an enum together with `matches`, `children`,
`children_mut`, `Display::fmt` and `FromOp::from_op` implementations, one
match arm per declared variant, in declaration order.  We embed that
generated code shallowly, parametrised by the list of variant declarations:
a `VariantDecl` records the shape of one declared variant exactly as the
macro distinguishes them (string variant with no children, string variant
with a child container, data variant, data variant with children), and the
generated functions are recursions over the declaration list that mirror
the emitted match arms one-for-one.

Payload types are arbitrary Rust types with `FromStr`/`Display`/`Eq`; we
model them by a single Lean type `D` (a concrete language instantiates `D`
with the sum of its payload types) together with a per-variant parse
function `String → Option D` and render function `D → String`.
-/

namespace EggMacros

/-- Child identifiers (`egg::Id`, a `u32` wrapper) are opaque to this layer;
we model them as naturals. -/
abbrev Id := Nat

/-- Modelled from the spec: `LanguageChildren` container shapes.  The trait
implementations are outside `src/`; the spec (§3, §4.4) fixes two shapes:
fixed-length (accepts exactly the declared length) and variable-length
(accepts any length). -/
inductive ChildSpec where
  | fixed (n : Nat)
  | variadic
deriving DecidableEq

/-- Modelled from the spec: `LanguageChildren::can_be_length` — the length
predicate driving variant selection: a fixed-size container accepts exactly
its declared size, a variable-size container accepts any length. -/
def ChildSpec.can_be_length : ChildSpec → Nat → Bool
  | .fixed n, k => k == n
  | .variadic, _ => true

/-- One variant declaration of a `define_language!` invocation, in the four
shapes the macro distinguishes (`src/macros.rs` lines 151-242):
`"tok" = V`, `"tok" = V(ids)`, `V(data)`, `V(data, ids)`.  Data-bearing
shapes carry the `FromStr` of the payload type as `parse` and its `Display` as
`render`. -/
inductive VariantDecl (D : Type) where
  | strNoChildren (token : String)
  | strWithChildren (token : String) (ids : ChildSpec)
  | dataVariant (parse : String → Option D) (render : D → String)
  | dataWithChildren (parse : String → Option D) (render : D → String) (ids : ChildSpec)

/-- A value of the generated enum: the variant index (its discriminant),
the embedded data value when the variant is data-bearing, and the stored
child identifiers. -/
structure Node (D : Type) where
  variant : Nat
  data : Option D
  children : List Id
deriving DecidableEq

/-- Well-formedness of a `Node` relative to the declaration list: the Rust
enum makes these shapes impossible to violate, so every Rust value of the
generated enum corresponds to a well-formed `Node`.  The variant index is
in range, data is present iff the variant is data-bearing, and the stored
children fit the declared container. -/
def NodeWF {D : Type} (decls : List (VariantDecl D)) (n : Node D) : Bool :=
  match decls.get? n.variant with
  | some (.strNoChildren _) => n.data.isNone && n.children.isEmpty
  | some (.strWithChildren _ ids) => n.data.isNone && ids.can_be_length n.children.length
  | some (.dataVariant _ _) => n.data.isSome && n.children.isEmpty
  | some (.dataWithChildren _ _ ids) => n.data.isSome && ids.can_be_length n.children.length
  | none => false

/-- The generated `Language::matches` (`src/macros.rs` line 124-127 and the
per-variant arms accumulated at lines 164, 185, 210, 231): discriminants
must be equal, and then the arm for the common variant compares payloads
(`data1 == data2`) and child counts (`len(l) == len(r)`) as its shape
dictates; the `_ => false` arm covers mismatched variants. -/
def node_matches {D : Type} [DecidableEq D] (decls : List (VariantDecl D)) (a b : Node D) : Bool :=
  decide (a.variant = b.variant) &&
  match decls.get? a.variant with
  | some (.strNoChildren _) => true
  | some (.strWithChildren _ _) => decide (a.children.length = b.children.length)
  | some (.dataVariant _ _) => decide (a.data = b.data)
  | some (.dataWithChildren _ _ _) =>
      decide (a.data = b.data) && decide (a.children.length = b.children.length)
  | none => false

/-- Writing one child slot through the mutable view returned by
`children_mut` (`src/macros.rs` line 130): the slice write replaces the
identifier at position `i`, and can touch nothing but the child slots. -/
def Node.setChild {D : Type} (n : Node D) (i : Nat) (v : Id) : Node D :=
  { n with children := n.children.set i v }

/-- The generated `Display::fmt` (`src/macros.rs` lines 133-137 and the
per-variant arms at lines 167, 188, 213, 234): string variants write their
fixed token, data-bearing variants write the `Display` form of the payload;
no arm ever touches the children. -/
def render {D : Type} (decls : List (VariantDecl D)) (n : Node D) : String :=
  match decls.get? n.variant, n.data with
  | some (.strNoChildren t), _ => t
  | some (.strWithChildren t _), _ => t
  | some (.dataVariant _ r), some d => r d
  | some (.dataWithChildren _ r _), some d => r d
  | _, _ => ""

/-- The guard of the `from_op` match arm generated for one variant
(`src/macros.rs` lines 168, 189, 214, 235), as a predicate on the operator
token and the child count: literal token equal and no children; literal
token equal and the container accepts the length; the token parses and no
children; the token parses and the container accepts the length. -/
def VariantDecl.claims {D : Type} : VariantDecl D → String → Nat → Bool
  | .strNoChildren t, op, k => op == t && k == 0
  | .strWithChildren t ids, op, k => op == t && ids.can_be_length k
  | .dataVariant p _, op, k => (p op).isSome && k == 0
  | .dataWithChildren p _ ids, op, k => (p op).isSome && ids.can_be_length k

/-- The node built by the `from_op` arm of one variant once its guard
holds, given the index of the variant: string variants store no data, data
variants store the parsed token, children-bearing variants store the given
child sequence via `LanguageChildren::from_vec`. -/
def VariantDecl.construct {D : Type} : VariantDecl D → Nat → String → List Id → Node D
  | .strNoChildren _, i, _, _ => ⟨i, none, []⟩
  | .strWithChildren _ _, i, _, cs => ⟨i, none, cs⟩
  | .dataVariant p _, i, op, _ => ⟨i, p op, []⟩
  | .dataWithChildren p _ _, i, op, cs => ⟨i, p op, cs⟩

/-- Modelled from the spec: `FromOpError` (its struct lives outside `src/`;
§7 says the error carries the offending token and child count, and the
call site `FromOpError::new(op, children)` at `src/macros.rs` line 145
passes the token and the full child sequence). -/
structure FromOpError where
  op : String
  children : List Id
deriving DecidableEq

/-- The body of the generated `FromOp::from_op` (`src/macros.rs` lines
142-147): the accumulated per-variant arms are tried in declaration order,
the first arm whose guard holds constructs its node, and the final
catch-all arm returns `FromOpError::new(op, children)`.  `i` tracks the
index of the first remaining declaration. -/
def from_op_go {D : Type} (op : String) (cs : List Id) :
    Nat → List (VariantDecl D) → Except FromOpError (Node D)
  | _, [] => .error ⟨op, cs⟩
  | i, d :: rest =>
      if d.claims op cs.length then .ok (d.construct i op cs)
      else from_op_go op cs (i + 1) rest

/-- The generated `FromOp::from_op` for the whole declaration list. -/
def from_op {D : Type} (decls : List (VariantDecl D)) (op : String) (cs : List Id) :
    Except FromOpError (Node D) :=
  from_op_go op cs 0 decls

/-- Accumulator loop of `parseInt`: consumes decimal digits, failing on the
first non-digit character. -/
def parseDigitsGo : List Char → Nat → Option Nat
  | [], acc => some acc
  | c :: rest, acc =>
      if c.isDigit then parseDigitsGo rest (acc * 10 + (c.toNat - 48)) else none

/-- A decimal integer parser modelling `i32::from_str`, the `FromStr` of
the payload type in the doc example variant `Num(i32)`
(`src/macros.rs` line 51): an optional leading minus sign followed by one
or more decimal digits. -/
def parseInt (s : String) : Option Int :=
  match s.data with
  | [] => none
  | '-' :: rest =>
      if rest.isEmpty then none else (parseDigitsGo rest 0).map (fun n => -(n : Int))
  | cs => (parseDigitsGo cs 0).map (fun n => (n : Int))

/-- A fallback variant in the sense of the spec (§3) and of the doc
example `Other(Symbol, Vec<Id>)` (`src/macros.rs` line 58): a data variant
with children whose payload parse never fails (every token is a valid
symbol, interned by `embed`) and whose child container is variable-length,
so its generated `from_op` arm (lines 219-242) accepts any token/arity. -/
def fallbackDecl {D : Type} (embed : String → D) (rdr : D → String) : VariantDecl D :=
  .dataWithChildren (fun s => some (embed s)) rdr .variadic

/-- Modelled from the spec: a `Pattern` (§3) is an external collaborator
whose grammar is out of scope; what this layer uses of it is an opaque
template value together with its list of bound pattern variables. -/
structure Pattern where
  ast : String
  vars : List String
deriving DecidableEq

/-- Modelled from the spec: a `Condition` (§3, §6) is a predicate over a
binding; this layer only composes conditions, so we record an opaque tag
identifying the predicate and, per §7, the pattern variables the condition
references (checked at rule construction). -/
structure Condition where
  tag : Nat
  vars : List String
deriving DecidableEq

/-- The applier side of a rule as assembled by the `rewrite!` macro: either
a bare pattern, or a `ConditionalApplier { condition, applier }` wrapping an
inner applier (`src/macros.rs` lines 381-386). -/
inductive Applier where
  | pattern (p : Pattern)
  | conditional (condition : Condition) (inner : Applier)
deriving DecidableEq

/-- Modelled from the spec: the free pattern variables of an applier (§4.3,
§7) — the variables of a pattern, and for a `ConditionalApplier` the
variables of the inner applier together with those of the condition. -/
def Applier.vars : Applier → List String
  | .pattern p => p.vars
  | .conditional c a => a.vars ++ c.vars

/-- The conditions of an applier chain, outermost first. -/
def Applier.conditionList : Applier → List Condition
  | .pattern _ => []
  | .conditional c a => c :: a.conditionList

/-- The core pattern at the centre of an applier chain. -/
def Applier.corePattern : Applier → Pattern
  | .pattern p => p
  | .conditional _ a => a.corePattern

/-- A `Rewrite` (spec §3): a named Searcher/Applier pair, immutable after
construction. -/
structure Rewrite where
  name : String
  searcher : Pattern
  applier : Applier
deriving DecidableEq

/-- Modelled from the spec: the unbound-variable error of `Rewrite::new`
(§4.3, §7) names the rule and the offending variable (the own test of the
repository at `src/macros.rs` line 426 expects the message
"refers to unbound var ?x"). -/
structure RewriteError where
  ruleName : String
  unboundVar : String
deriving DecidableEq

/-- Modelled from the spec: `Rewrite::new` (outside `src/`; §4.3): fails
iff the free pattern variables of the applier are not a subset of the
bound variables, naming the first offending variable; otherwise returns the
assembled record. -/
def Rewrite.new (name : String) (searcher : Pattern) (applier : Applier) :
    Except RewriteError Rewrite :=
  match applier.vars.find? (fun v => !(searcher.vars.contains v)) with
  | some v => .error ⟨name, v⟩
  | none => .ok ⟨name, searcher, applier⟩

/-- The `@applier` rules of `__rewrite!` (`src/macros.rs` lines 380-386):
no conditions leave the core applier bare; otherwise the first condition
becomes the outermost `ConditionalApplier` and the rest wrap the core
recursively. -/
def wrapApplier : List Condition → Applier → Applier
  | [], a => a
  | c :: cs, a => .conditional c (wrapApplier cs a)

/-- The unidirectional `rewrite!(name; lhs => rhs if conds...)` arm
(`src/macros.rs` lines 329-338): parse searcher and core applier, wrap the
conditions via `@applier`, and call `Rewrite::new`; the `.unwrap()` panic
on failure is modelled by the error side of the result. -/
def mk_rewrite (name : String) (lhs rhs : Pattern) (conds : List Condition) :
    Except RewriteError Rewrite :=
  Rewrite.new name lhs (wrapApplier conds (.pattern rhs))

/-- The bidirectional `rewrite!(name; lhs <=> rhs if conds...)` arm
(`src/macros.rs` lines 339-350): a two-element `vec!` of the forward rule
under `name` and the reversed rule under `name + "-rev"`, each built by the
unidirectional arm with the same condition list; the elements are evaluated
left to right and the `.unwrap()` panic in either aborts the construction,
modelled by propagating the first error. -/
def mk_rewrite_bidirectional (name : String) (lhs rhs : Pattern)
    (conds : List Condition) : Except RewriteError (List Rewrite) :=
  match mk_rewrite name lhs rhs conds with
  | .error e => .error e
  | .ok fwd =>
      match mk_rewrite (name ++ "-rev") rhs lhs conds with
      | .error e => .error e
      | .ok rev => .ok [fwd, rev]

/-- Modelled from the spec: `ConditionalApplier` application (§4.3, outside
`src/`): check the condition first; only when it holds is the inner applier
evaluated, otherwise application stops with no matches.  The semantics of
the leaf conditions and patterns are passed in as state transformers over
`σ` so that evaluation (and its order) is observable. -/
def Applier.apply_one {σ : Type} (condSem : Condition → σ → σ × Bool)
    (patSem : Pattern → σ → σ × List Id) : Applier → σ → σ × List Id
  | .pattern p, s => patSem p s
  | .conditional c a, s =>
      match condSem c s with
      | (s1, true) => Applier.apply_one condSem patSem a s1
      | (s1, false) => (s1, [])

/-- Instrumented condition semantics: evaluating a condition appends its
tag to the log and returns the verdict `check` assigns to that tag. -/
def logCondSem (check : Nat → Bool) : Condition → List Nat → List Nat × Bool :=
  fun c s => (s ++ [c.tag], check c.tag)

/-- Instrumented core-applier semantics: evaluating the core pattern
appends a distinguished tag to the log and returns a fixed result. -/
def logPatSem (coreTag : Nat) (res : List Id) : Pattern → List Nat → List Nat × List Id :=
  fun _ s => (s ++ [coreTag], res)

/-! ## Helper lemmas about `from_op` -/

theorem from_op_go_all_not {D : Type} (op : String) (cs : List Id) :
    ∀ (decls : List (VariantDecl D)) (i : Nat),
      (∀ d ∈ decls, d.claims op cs.length = false) →
      from_op_go op cs i decls = .error ⟨op, cs⟩ := by
  intro decls
  induction decls with
  | nil => intro i _; rfl
  | cons d rest ih =>
      intro i h
      have hd : d.claims op cs.length = false := h d (List.mem_cons_self d rest)
      simp only [from_op_go, hd, Bool.false_eq_true, if_false]
      exact ih (i + 1) (fun x hx => h x (List.mem_cons_of_mem d hx))

theorem from_op_go_first {D : Type} (op : String) (cs : List Id) :
    ∀ (decls : List (VariantDecl D)) (i : Nat),
      (∃ d ∈ decls, d.claims op cs.length = true) →
      ∃ k, ∃ hk : k < decls.length,
        (decls.get ⟨k, hk⟩).claims op cs.length = true ∧
        (∀ j (hj : j < decls.length), j < k →
          (decls.get ⟨j, hj⟩).claims op cs.length = false) ∧
        from_op_go op cs i decls = .ok ((decls.get ⟨k, hk⟩).construct (i + k) op cs) := by
  intro decls
  induction decls with
  | nil => intro i h; simp at h
  | cons d rest ih =>
      intro i h
      by_cases hd : d.claims op cs.length = true
      · refine ⟨0, Nat.succ_pos _, hd, ?_, ?_⟩
        · intro j hj hj0; omega
        · simp only [from_op_go, hd, if_true, List.get, Nat.add_zero]
      · have hrest : ∃ x ∈ rest, x.claims op cs.length = true := by
          obtain ⟨x, hx, hcx⟩ := h
          rcases List.mem_cons.mp hx with rfl | hx'
          · exact absurd hcx hd
          · exact ⟨x, hx', hcx⟩
        obtain ⟨k, hk, hc, hmin, heq⟩ := ih (i + 1) hrest
        refine ⟨k + 1, Nat.succ_lt_succ hk, hc, ?_, ?_⟩
        · intro j hj hjk
          cases j with
          | zero => exact Bool.eq_false_iff.mpr hd
          | succ j' => exact hmin j' (Nat.lt_of_succ_lt_succ hj) (Nat.lt_of_succ_lt_succ hjk)
        · have hd' : d.claims op cs.length = false := Bool.eq_false_iff.mpr hd
          simp only [from_op_go, hd', Bool.false_eq_true, if_false, List.get]
          rw [show i + (k + 1) = i + 1 + k by omega]
          exact heq

theorem from_op_go_error_shape {D : Type} (op : String) (cs : List Id) :
    ∀ (decls : List (VariantDecl D)) (i : Nat) (e : FromOpError),
      from_op_go op cs i decls = .error e → e = ⟨op, cs⟩ := by
  intro decls
  induction decls with
  | nil =>
      intro i e h
      simp only [from_op_go] at h
      exact (Except.error.inj h).symm
  | cons d rest ih =>
      intro i e h
      simp only [from_op_go] at h
      by_cases hd : d.claims op cs.length = true
      · simp [hd] at h
      · simp only [hd, Bool.false_eq_true, if_false] at h
        exact ih (i + 1) e h

theorem from_op_go_append_skip {D : Type} (op : String) (cs : List Id) :
    ∀ (l1 l2 : List (VariantDecl D)) (i : Nat),
      (∀ d ∈ l1, d.claims op cs.length = false) →
      from_op_go op cs i (l1 ++ l2) = from_op_go op cs (i + l1.length) l2 := by
  intro l1
  induction l1 with
  | nil => intro l2 i _; simp [from_op_go]
  | cons d rest ih =>
      intro l2 i h
      have hd : d.claims op cs.length = false := h d (List.mem_cons_self d rest)
      simp only [List.cons_append, from_op_go, hd, Bool.false_eq_true, if_false,
        List.append_eq]
      rw [ih l2 (i + 1) (fun x hx => h x (List.mem_cons_of_mem d hx))]
      congr 1
      simp only [List.length_cons]
      omega

/-! ## Claim theorems -/

/-- C2: `from_op` evaluates the variant definitions in declaration order
and the first variant whose guard accepts the token/child-count pair wins:
whenever the variants declared at positions `i < j` both claim the pair,
the result is the constructed node of the first-declared claiming variant,
whose position is at most `i` (so never the later `j`), and no variant
declared before it claims the pair. -/
theorem from_op_declaration_order {D : Type} (decls : List (VariantDecl D))
    (op : String) (cs : List Id) (i j : Nat) (hij : i < j) (hj : j < decls.length)
    (hci : (decls.get ⟨i, Nat.lt_trans hij hj⟩).claims op cs.length = true)
    (hcj : (decls.get ⟨j, hj⟩).claims op cs.length = true) :
    ∃ k, ∃ hk : k < decls.length, k ≤ i ∧
      (decls.get ⟨k, hk⟩).claims op cs.length = true ∧
      (∀ m (hm : m < decls.length), m < k →
        (decls.get ⟨m, hm⟩).claims op cs.length = false) ∧
      from_op decls op cs = .ok ((decls.get ⟨k, hk⟩).construct k op cs) := by
  have hex : ∃ d ∈ decls, d.claims op cs.length = true :=
    ⟨_, List.get_mem _ _ _, hci⟩
  obtain ⟨k, hk, hc, hmin, heq⟩ := from_op_go_first op cs decls 0 hex
  have hki : k ≤ i := by
    by_contra hgt
    have hfalse := hmin i (Nat.lt_trans hij hj) (by omega)
    rw [hci] at hfalse
    simp at hfalse
  refine ⟨k, hk, hki, hc, hmin, ?_⟩
  simpa [from_op] using heq

/-- Witness for C2 at a concrete language: two variants both claim the
token `"x"` with zero children, and `from_op` yields the first-declared. -/
theorem from_op_declaration_order_witness :
    from_op [VariantDecl.strNoChildren (D := Int) "x", VariantDecl.strNoChildren "x"]
      "x" ([] : List Id) = .ok ⟨0, none, []⟩ := by
  obtain ⟨k, hk, hki, _, _, heq⟩ :=
    from_op_declaration_order
      [VariantDecl.strNoChildren (D := Int) "x", VariantDecl.strNoChildren "x"]
      "x" [] 0 1 (by decide) (by decide) (by decide) (by decide)
  have hk0 : k = 0 := Nat.le_zero.mp hki
  subst hk0
  rw [heq]
  rfl

/-- C3: fallback completeness — for a language whose last declared variant
is a fallback (raw token interned into the payload, variable-length child
sequence), `from_op` never returns an error; and on any input no earlier
variant claims, the result is the fallback node storing the interned token
and the full child sequence. -/
theorem from_op_fallback_total {D : Type} (decls : List (VariantDecl D))
    (embed : String → D) (rdr : D → String) (op : String) (cs : List Id) :
    (from_op (decls ++ [fallbackDecl embed rdr]) op cs).isOk = true ∧
    ((∀ d ∈ decls, d.claims op cs.length = false) →
      from_op (decls ++ [fallbackDecl embed rdr]) op cs
        = .ok ⟨decls.length, some (embed op), cs⟩) := by
  constructor
  · have hex : ∃ d ∈ decls ++ [fallbackDecl embed rdr], d.claims op cs.length = true := by
      refine ⟨fallbackDecl embed rdr, by simp, ?_⟩
      simp [fallbackDecl, VariantDecl.claims, ChildSpec.can_be_length]
    obtain ⟨k, hk, _, _, heq⟩ := from_op_go_first op cs _ 0 hex
    simp [from_op, heq, Except.isOk, Except.toBool]
  · intro h
    unfold from_op
    rw [from_op_go_append_skip op cs decls [fallbackDecl embed rdr] 0 h]
    simp [from_op_go, fallbackDecl, VariantDecl.claims, ChildSpec.can_be_length,
      VariantDecl.construct]

/-- Witness for C3 at a concrete language: the token `"foo"` with two
children is claimed by no declared variant, so the fallback stores it
verbatim with the full child sequence. -/
theorem from_op_fallback_total_witness :
    from_op ([VariantDecl.strNoChildren "pi"] ++ [fallbackDecl (fun s => s) (fun s => s)])
      "foo" [4, 5] = .ok ⟨1, some "foo", [4, 5]⟩ :=
  (from_op_fallback_total [VariantDecl.strNoChildren "pi"] (fun s => s) (fun s => s)
    "foo" [4, 5]).2 (by decide)

/-- C4: `from_op` returns an error exactly when no variant claims the given
token and child count — and the error then carries exactly the offending
token and the given child sequence (hence its count); on every other input
it returns a constructed node. -/
theorem from_op_error_characterization {D : Type} (decls : List (VariantDecl D))
    (op : String) (cs : List Id) :
    (from_op decls op cs = .error ⟨op, cs⟩ ∧
      ∀ d ∈ decls, d.claims op cs.length = false) ∨
    ((∃ n, from_op decls op cs = .ok n) ∧
      ∃ d ∈ decls, d.claims op cs.length = true) := by
  by_cases h : ∀ d ∈ decls, d.claims op cs.length = false
  · exact Or.inl ⟨from_op_go_all_not op cs decls 0 h, h⟩
  · right
    have hex : ∃ d ∈ decls, d.claims op cs.length = true := by
      push_neg at h
      obtain ⟨d, hd, hcd⟩ := h
      exact ⟨d, hd, Bool.not_eq_false _ |>.mp hcd⟩
    obtain ⟨k, hk, hc, _, heq⟩ := from_op_go_first op cs decls 0 hex
    exact ⟨⟨_, heq⟩, _, List.get_mem _ _ _, hc⟩

theorem node_matches_iff {D : Type} [DecidableEq D] (decls : List (VariantDecl D))
    (a b : Node D) (hwa : NodeWF decls a = true) (hwb : NodeWF decls b = true) :
    node_matches decls a b = true ↔
      a.variant = b.variant ∧ a.data = b.data ∧ a.children.length = b.children.length := by
  by_cases hv : a.variant = b.variant
  · have hgetb : decls.get? b.variant = decls.get? a.variant := by rw [hv]
    unfold NodeWF at hwa hwb
    rw [hgetb] at hwb
    unfold node_matches
    cases hget : decls.get? a.variant with
    | none => rw [hget] at hwa; simp at hwa
    | some d =>
        rw [hget] at hwa hwb
        cases d with
        | strNoChildren t =>
            simp only [Bool.and_eq_true, Option.isNone_iff_eq_none,
              List.isEmpty_iff] at hwa hwb
            simp [hv, hwa.1, hwa.2, hwb.1, hwb.2]
        | strWithChildren t ids =>
            simp only [Bool.and_eq_true, Option.isNone_iff_eq_none] at hwa hwb
            simp [hv, hwa.1, hwb.1]
        | dataVariant p r =>
            simp only [Bool.and_eq_true, List.isEmpty_iff] at hwa hwb
            simp [hv, hwa.2, hwb.2]
        | dataWithChildren p r ids =>
            simp [hv, and_assoc]
  · simp [node_matches, hv]

/-- C1: for well-formed nodes of a language defined by the macro,
`matches` is true iff the discriminants are equal, the embedded data values
are equal (trivially so for data-free variants), and the child counts are
equal (trivially so for childless variants); consequently it is reflexive,
false across distinct variants regardless of payload, and insensitive to
the child identifiers themselves (only their count matters). -/
theorem node_matches_spec {D : Type} [DecidableEq D] (decls : List (VariantDecl D))
    (a b : Node D) (hwa : NodeWF decls a = true) (hwb : NodeWF decls b = true) :
    (node_matches decls a b = true ↔
      a.variant = b.variant ∧ a.data = b.data ∧ a.children.length = b.children.length) ∧
    node_matches decls a a = true ∧
    (a.variant ≠ b.variant → node_matches decls a b = false) ∧
    (∀ cs cs' : List Id, cs.length = a.children.length → cs'.length = b.children.length →
      node_matches decls { a with children := cs } { b with children := cs' }
        = node_matches decls a b) := by
  refine ⟨node_matches_iff decls a b hwa hwb, ?_, ?_, ?_⟩
  · exact (node_matches_iff decls a a hwa hwa).mpr ⟨rfl, rfl, rfl⟩
  · intro hne
    cases h : node_matches decls a b with
    | false => rfl
    | true => exact absurd ((node_matches_iff decls a b hwa hwb).mp h).1 hne
  · intro cs cs' hcs hcs'
    simp only [node_matches]
    rw [hcs, hcs']

/-- Witness for C1 at a concrete language: two well-formed nodes of the
binary-operator variant with different child identifiers but equal counts
match. -/
theorem node_matches_spec_witness :
    node_matches [VariantDecl.strWithChildren (D := Int) "+" (.fixed 2)]
      ⟨0, none, [1, 2]⟩ ⟨0, none, [3, 4]⟩ = true :=
  (node_matches_spec [VariantDecl.strWithChildren "+" (.fixed 2)]
    ⟨0, none, [1, 2]⟩ ⟨0, none, [3, 4]⟩ (by decide) (by decide)).1.mpr ⟨rfl, rfl, rfl⟩

/-- C9: writing any child slot through the mutable children view never
changes the variant of the node or the length of `children()`; it also keeps
the node well-formed. -/
theorem setChild_preserves_arity {D : Type} (decls : List (VariantDecl D))
    (n : Node D) (i : Nat) (v : Id) :
    (n.setChild i v).variant = n.variant ∧
    (n.setChild i v).children.length = n.children.length ∧
    (NodeWF decls n = true → NodeWF decls (n.setChild i v) = true) := by
  refine ⟨rfl, List.length_set n.children i v, ?_⟩
  intro h
  unfold NodeWF at h ⊢
  have hv : (n.setChild i v).variant = n.variant := rfl
  rw [hv]
  cases hget : decls.get? n.variant with
  | none => rw [hget] at h; exact h
  | some d =>
      rw [hget] at h
      cases d <;>
        simp_all [Node.setChild, List.length_set, List.isEmpty_iff]

/-- Witness for C9 at a concrete language: overwriting the first child of a
well-formed binary node keeps it well-formed (same variant, same arity). -/
theorem setChild_preserves_arity_witness :
    NodeWF [VariantDecl.strWithChildren (D := Int) "+" (.fixed 2)]
      (Node.setChild ⟨0, none, [5, 5]⟩ 0 7) = true :=
  (setChild_preserves_arity [VariantDecl.strWithChildren "+" (.fixed 2)]
    ⟨0, none, [5, 5]⟩ 0 7).2.2 (by decide)

/-- C8 counterexample: the claim fails as stated.  In the language that
declares a data variant with payload `i32` before the literal-token
variant `"5"` (declaration order is chosen by the rule author), the literal
variant is shadowed on its own token: `from_op "5" []` returns the data
node of the data variant, not the node of the literal variant. -/
theorem literal_roundtrip_counterexample :
    from_op [VariantDecl.dataVariant parseInt toString,
        VariantDecl.strNoChildren "5"] "5" ([] : List Id)
      = .ok ⟨0, some (5 : Int), []⟩ ∧
    from_op [VariantDecl.dataVariant parseInt toString,
        VariantDecl.strNoChildren "5"] "5" ([] : List Id)
      ≠ .ok ⟨1, none, []⟩ := by
  have h1 : from_op [VariantDecl.dataVariant parseInt toString,
      VariantDecl.strNoChildren "5"] "5" ([] : List Id)
      = .ok ⟨0, some (5 : Int), []⟩ := rfl
  refine ⟨h1, ?_⟩
  intro h
  rw [h1] at h
  exact absurd (Except.ok.inj h) (by decide)

/-- C8 amended: for every literal-token variant declared with no children
such that no earlier-declared variant claims the pair (token, 0 children),
`from_op(token, [])` returns Ok of exactly that variant; rendering that
variant produces the declared token exactly; and rendering never reads the
children, for every variant shape. -/
theorem literal_roundtrip_amended {D : Type} (decls : List (VariantDecl D))
    (i : Nat) (token : String)
    (hget : decls.get? i = some (.strNoChildren token))
    (hfirst : ∀ j (hj : j < decls.length), j < i →
      (decls.get ⟨j, hj⟩).claims token 0 = false) :
    from_op decls token [] = .ok ⟨i, none, []⟩ ∧
    render decls ⟨i, none, []⟩ = token ∧
    (∀ (n : Node D) (cs : List Id),
      render decls { n with children := cs } = render decls n) := by
  obtain ⟨hi, hgi⟩ := List.get?_eq_some.mp hget
  have hci : (decls.get ⟨i, hi⟩).claims token 0 = true := by
    rw [hgi]; simp [VariantDecl.claims]
  refine ⟨?_, ?_, fun n cs => rfl⟩
  · obtain ⟨k, hk, hc, hmin, heq⟩ := from_op_go_first token [] decls 0 ⟨_, List.get_mem _ _ _, hci⟩
    simp only [List.length_nil] at hc hmin
    have hik : k = i := by
      rcases Nat.lt_trichotomy k i with hlt | heqki | hgt
      · have := hfirst k hk hlt
        rw [hc] at this
        simp at this
      · exact heqki
      · have := hmin i hi hgt
        rw [hci] at this
        simp at this
    subst hik
    rw [from_op, heq, hgi]
    simp [VariantDecl.construct, Nat.zero_add]
  · rw [List.get?_eq_getElem?] at hget
    simp [render, hget]

/-- Witness for the amended statement of C8 at a concrete language with a single
nullary literal variant. -/
theorem literal_roundtrip_amended_witness :
    from_op [VariantDecl.strNoChildren (D := Int) "pi"] "pi" [] = .ok ⟨0, none, []⟩ ∧
    render [VariantDecl.strNoChildren (D := Int) "pi"] ⟨0, none, []⟩ = "pi" := by
  have h := literal_roundtrip_amended [VariantDecl.strNoChildren (D := Int) "pi"]
    0 "pi" rfl (fun j hj hj0 => absurd hj0 (Nat.not_lt_zero j))
  exact ⟨h.1, h.2.1⟩

theorem wrapApplier_conditionList (conds : List Condition) (a : Applier) :
    (wrapApplier conds a).conditionList = conds ++ a.conditionList := by
  induction conds with
  | nil => simp [wrapApplier]
  | cons c cs ih => simp [wrapApplier, Applier.conditionList, ih]

theorem wrapApplier_corePattern (conds : List Condition) (a : Applier) :
    (wrapApplier conds a).corePattern = a.corePattern := by
  induction conds with
  | nil => rfl
  | cons c cs ih => simp [wrapApplier, Applier.corePattern, ih]

theorem Rewrite.new_ok (name : String) (lhs : Pattern) (a : Applier)
    (h : ∀ v ∈ a.vars, lhs.vars.contains v = true) :
    Rewrite.new name lhs a = .ok ⟨name, lhs, a⟩ := by
  have hnone : a.vars.find? (fun x => !(lhs.vars.contains x)) = none := by
    rw [List.find?_eq_none]
    intro x hx
    rw [h x hx]
    simp
  unfold Rewrite.new
  rw [hnone]

theorem apply_one_all_pass (check : Nat → Bool) (coreTag : Nat) (res : List Id)
    (P : Pattern) :
    ∀ (conds : List Condition) (s0 : List Nat), (∀ c ∈ conds, check c.tag = true) →
      Applier.apply_one (logCondSem check) (logPatSem coreTag res)
        (wrapApplier conds (.pattern P)) s0
        = (s0 ++ conds.map Condition.tag ++ [coreTag], res) := by
  intro conds
  induction conds with
  | nil => intro s0 _; simp [wrapApplier, Applier.apply_one, logPatSem]
  | cons c cs ih =>
      intro s0 h
      have hc : check c.tag = true := h c (List.mem_cons_self _ _)
      simp only [wrapApplier, Applier.apply_one, logCondSem, hc]
      rw [ih (s0 ++ [c.tag]) (fun x hx => h x (List.mem_cons_of_mem _ hx))]
      simp [List.append_assoc]

theorem apply_one_first_fail (check : Nat → Bool) (coreTag : Nat) (res : List Id)
    (P : Pattern) :
    ∀ (conds : List Condition) (k : Nat) (hk : k < conds.length) (s0 : List Nat),
      check ((conds.get ⟨k, hk⟩).tag) = false →
      (∀ j (hj : j < conds.length), j < k → check ((conds.get ⟨j, hj⟩).tag) = true) →
      Applier.apply_one (logCondSem check) (logPatSem coreTag res)
        (wrapApplier conds (.pattern P)) s0
        = (s0 ++ (conds.take (k + 1)).map Condition.tag, []) := by
  intro conds
  induction conds with
  | nil => intro k hk; simp at hk
  | cons c cs ih =>
      intro k hk s0 hfail hpass
      cases k with
      | zero =>
          have hc : check c.tag = false := hfail
          simp only [wrapApplier, Applier.apply_one, logCondSem, hc]
          simp
      | succ k' =>
          have hc : check c.tag = true := hpass 0 (Nat.succ_pos _) (Nat.succ_pos _)
          simp only [wrapApplier, Applier.apply_one, logCondSem, hc]
          rw [ih k' (Nat.lt_of_succ_lt_succ hk) (s0 ++ [c.tag]) hfail
            (fun j hj hjk => hpass (j + 1) (Nat.succ_lt_succ hj) (Nat.succ_lt_succ hjk))]
          simp [List.append_assoc]

/-- C5: conditions are wrapped first-listed-outermost around the core
applier, the outermost condition is evaluated first, and evaluation
short-circuits: if every condition passes, the log records the conditions
in listed order followed by the core applier and the result of the core is
returned; if the condition at position `k` is the first to fail, the log
records exactly the first `k + 1` conditions — the conditions inside the
failing one and the core applier are never evaluated — and no matches are
produced. -/
theorem conditional_applier_short_circuit (conds : List Condition) (P : Pattern)
    (check : Nat → Bool) (coreTag : Nat) (res : List Id) (s0 : List Nat) :
    ((∀ c ∈ conds, check c.tag = true) →
      Applier.apply_one (logCondSem check) (logPatSem coreTag res)
        (wrapApplier conds (.pattern P)) s0
        = (s0 ++ conds.map Condition.tag ++ [coreTag], res)) ∧
    (∀ k (hk : k < conds.length), check ((conds.get ⟨k, hk⟩).tag) = false →
      (∀ j (hj : j < conds.length), j < k → check ((conds.get ⟨j, hj⟩).tag) = true) →
      Applier.apply_one (logCondSem check) (logPatSem coreTag res)
        (wrapApplier conds (.pattern P)) s0
        = (s0 ++ (conds.take (k + 1)).map Condition.tag, [])) :=
  ⟨fun h => apply_one_all_pass check coreTag res P conds s0 h,
   fun k hk hfail hpass =>
     apply_one_first_fail check coreTag res P conds k hk s0 hfail hpass⟩

/-- Witness for C5: with two conditions of which the second fails, the
evaluation log is exactly the two condition tags — the core applier (tag 9)
never runs — and no matches are produced. -/
theorem conditional_applier_short_circuit_witness :
    Applier.apply_one (logCondSem (fun t => t == 1)) (logPatSem 9 [3])
      (wrapApplier [⟨1, []⟩, ⟨2, []⟩] (.pattern ⟨"p", []⟩)) []
      = ([1, 2], []) := by
  have h := (conditional_applier_short_circuit [⟨1, []⟩, ⟨2, []⟩] ⟨"p", []⟩
    (fun t => t == 1) 9 [3] []).2 1 (by decide) (by decide) (by decide)
  simpa using h

/-- C6: building a bidirectional rule with name `N` from patterns `P` and
`Q` (each pattern binding the variables of the other, so that both directions
pass the construction-time validation) produces exactly two `Rewrite`
values: one named `N` with searcher `P` and applier `Q`, and one named
`N ++ "-rev"` with searcher `Q` and applier `P`. -/
theorem mk_rewrite_bidirectional_spec (name : String) (P Q : Pattern)
    (hQP : ∀ v ∈ Q.vars, P.vars.contains v = true)
    (hPQ : ∀ v ∈ P.vars, Q.vars.contains v = true) :
    mk_rewrite_bidirectional name P Q []
      = .ok [⟨name, P, .pattern Q⟩, ⟨name ++ "-rev", Q, .pattern P⟩] := by
  have h1 : mk_rewrite name P Q [] = .ok ⟨name, P, .pattern Q⟩ :=
    Rewrite.new_ok name P (.pattern Q) (fun v hv => hQP v hv)
  have h2 : mk_rewrite (name ++ "-rev") Q P [] = .ok ⟨name ++ "-rev", Q, .pattern P⟩ :=
    Rewrite.new_ok (name ++ "-rev") Q (.pattern P) (fun v hv => hPQ v hv)
  simp [mk_rewrite_bidirectional, h1, h2]

/-- Witness for C6 at concrete commutativity patterns. -/
theorem mk_rewrite_bidirectional_spec_witness :
    mk_rewrite_bidirectional "comm" ⟨"(+ ?a ?b)", ["?a", "?b"]⟩
        ⟨"(+ ?b ?a)", ["?b", "?a"]⟩ []
      = .ok [⟨"comm", ⟨"(+ ?a ?b)", ["?a", "?b"]⟩, .pattern ⟨"(+ ?b ?a)", ["?b", "?a"]⟩⟩,
             ⟨"comm" ++ "-rev", ⟨"(+ ?b ?a)", ["?b", "?a"]⟩,
               .pattern ⟨"(+ ?a ?b)", ["?a", "?b"]⟩⟩] :=
  mk_rewrite_bidirectional_spec "comm" ⟨"(+ ?a ?b)", ["?a", "?b"]⟩
    ⟨"(+ ?b ?a)", ["?b", "?a"]⟩ (by decide) (by decide)

/-- C7: constructing a `Rewrite` whose applier side (core pattern together
with any attached conditions) references a pattern variable the searcher
does not bind fails at construction time with an error naming the rule and
an unbound variable (through the `rewrite!` macro the error side is the
panic of `.unwrap()`); when the variables of the applier side are all bound by
the searcher, construction succeeds. -/
theorem mk_rewrite_unbound_var (name : String) (lhs rhs : Pattern)
    (conds : List Condition) :
    ((∃ v ∈ (wrapApplier conds (.pattern rhs)).vars, lhs.vars.contains v = false) →
      ∃ e, mk_rewrite name lhs rhs conds = .error e ∧ e.ruleName = name ∧
        e.unboundVar ∈ (wrapApplier conds (.pattern rhs)).vars ∧
        lhs.vars.contains e.unboundVar = false) ∧
    ((∀ v ∈ (wrapApplier conds (.pattern rhs)).vars, lhs.vars.contains v = true) →
      mk_rewrite name lhs rhs conds
        = .ok ⟨name, lhs, wrapApplier conds (.pattern rhs)⟩) := by
  constructor
  · rintro ⟨v, hv, hnv⟩
    have hsome : ((wrapApplier conds (.pattern rhs)).vars.find?
        (fun x => !(lhs.vars.contains x))).isSome = true := by
      rw [List.find?_isSome]
      exact ⟨v, hv, by simp only [hnv, Bool.not_false]⟩
    obtain ⟨w, hw⟩ := Option.isSome_iff_exists.mp hsome
    have hwp := List.find?_some hw
    have hwmem := List.mem_of_find?_eq_some hw
    have hwc : lhs.vars.contains w = false := by
      cases hc : lhs.vars.contains w with
      | false => rfl
      | true => rw [hc] at hwp; cases hwp
    refine ⟨⟨name, w⟩, ?_, rfl, hwmem, hwc⟩
    unfold mk_rewrite Rewrite.new
    rw [hw]
  · intro h
    exact Rewrite.new_ok name lhs (wrapApplier conds (.pattern rhs)) h

/-- Witness for C7, mirroring the own test of the repository
`rewrite_simple_panic` (`"bad"; "?a" => "?x"`): the applier variable `?x`
is unbound in the searcher, so construction errors, naming `?x`. -/
theorem mk_rewrite_unbound_var_witness :
    ∃ e, mk_rewrite "bad" ⟨"?a", ["?a"]⟩ ⟨"?x", ["?x"]⟩ [] = .error e ∧
      e.ruleName = "bad" ∧
      e.unboundVar ∈ (wrapApplier [] (.pattern ⟨"?x", ["?x"]⟩)).vars ∧
      (Pattern.vars ⟨"?a", ["?a"]⟩).contains e.unboundVar = false :=
  (mk_rewrite_unbound_var "bad" ⟨"?a", ["?a"]⟩ ⟨"?x", ["?x"]⟩ []).1
    ⟨"?x", by decide, by decide⟩

/-- C10: in the bidirectional arm with attached conditions, both produced
`Rewrite` values carry the full condition list, in the same
outermost-to-innermost order, around their respective core patterns. -/
theorem mk_rewrite_bidirectional_conditions (name : String) (P Q : Pattern)
    (conds : List Condition)
    (h1 : ∀ v ∈ (wrapApplier conds (.pattern Q)).vars, P.vars.contains v = true)
    (h2 : ∀ v ∈ (wrapApplier conds (.pattern P)).vars, Q.vars.contains v = true) :
    mk_rewrite_bidirectional name P Q conds
      = .ok [⟨name, P, wrapApplier conds (.pattern Q)⟩,
             ⟨name ++ "-rev", Q, wrapApplier conds (.pattern P)⟩] ∧
    (wrapApplier conds (.pattern Q)).conditionList = conds ∧
    (wrapApplier conds (.pattern P)).conditionList = conds := by
  refine ⟨?_, ?_, ?_⟩
  · have hfwd := Rewrite.new_ok name P (wrapApplier conds (.pattern Q)) h1
    have hrev := Rewrite.new_ok (name ++ "-rev") Q (wrapApplier conds (.pattern P)) h2
    simp [mk_rewrite_bidirectional, mk_rewrite, hfwd, hrev]
  · simp [wrapApplier_conditionList, Applier.conditionList]
  · simp [wrapApplier_conditionList, Applier.conditionList]

/-- Witness for C10: one condition on variable `?b`, both directions valid;
both rules carry the condition. -/
theorem mk_rewrite_bidirectional_conditions_witness :
    mk_rewrite_bidirectional "div" ⟨"(/ ?a ?b)", ["?a", "?b"]⟩
        ⟨"(* ?a ?b)", ["?a", "?b"]⟩ [⟨0, ["?b"]⟩]
      = .ok [⟨"div", ⟨"(/ ?a ?b)", ["?a", "?b"]⟩,
               wrapApplier [⟨0, ["?b"]⟩] (.pattern ⟨"(* ?a ?b)", ["?a", "?b"]⟩)⟩,
             ⟨"div" ++ "-rev", ⟨"(* ?a ?b)", ["?a", "?b"]⟩,
               wrapApplier [⟨0, ["?b"]⟩] (.pattern ⟨"(/ ?a ?b)", ["?a", "?b"]⟩)⟩] :=
  (mk_rewrite_bidirectional_conditions "div" ⟨"(/ ?a ?b)", ["?a", "?b"]⟩
    ⟨"(* ?a ?b)", ["?a", "?b"]⟩ [⟨0, ["?b"]⟩] (by decide) (by decide)).1

end EggMacros
